import Mathlib

/-!
Shallow embedding of the secure random-value generation subsystem and the
passphrase-composition algorithm of `src/main.py` (MiscellaneousAPI).

Conventions of the embedding:

* Entropy is modelled as an explicit finite list of natural numbers.  Each
  call to `secrets.randbelow(n)` consumes one element `x` of the list and
  yields `x % n`, which ranges over all of `[0, n)` as `x` does; the rest of
  the list is threaded through the computation.  Running out of entropy is a
  modelling artifact (`RandError.outOfEntropy`) that stands for "the
  computation is still waiting for further draws"; it has no counterpart in
  the source, where the generator is inexhaustible.
* `secrets.randbelow` raises `ValueError("Upper bound must be positive.")`
  when its bound is not positive; this is `RandError.upperBoundNotPositive`.
  The spec calls the surfacing of this error from `choice` on an empty
  sequence `EmptyInputError`.
* `_secure_sample`'s own `ValueError` ("Sample size cannot exceed the number
  of available items.") is `RandError.sampleSizeExceedsPopulation`, the
  spec's `SampleSizeExceedsPopulationError`.
* Python strings are `List Char`; the string helpers (`str.title`,
  `str.lower`, `str.upper`, `in`, `str.replace`, `str.split`, `str.join`)
  are translated for the ASCII range the program uses.
-/

inductive RandError where
  | sampleSizeExceedsPopulation : RandError
  | upperBoundNotPositive : RandError
  | outOfEntropy : RandError
deriving DecidableEq, Repr

/-- Result of a computation that consumes entropy: either a value (paired
with the unconsumed entropy) or an error.  Mirrors Python's
raise-or-return. -/
inductive Outcome (α : Type) where
  | ok : α → Outcome α
  | error : RandError → Outcome α
deriving DecidableEq, Repr

/-- `secrets.randbelow(n)`: uniform integer in `[0, n)`; raises when
`n ≤ 0`.  One entropy element is consumed per call. -/
def randbelow (n : ℤ) (e : List ℕ) : Outcome (ℤ × List ℕ) :=
  if n ≤ 0 then .error .upperBoundNotPositive
  else
    match e with
    | [] => .error .outOfEntropy
    | x :: e' => .ok ((x : ℤ) % n, e')

/-- `_secure_choice(items)` from `src/main.py`: calls
`secrets.randbelow(len(items))` and indexes.  The bound check of
`randbelow` is inlined (as the dependent `if`) so that the in-range index
can be used with `List.get` directly. -/
def secureChoice {α : Type} (items : List α) (e : List ℕ) :
    Outcome (α × List ℕ) :=
  if h : items.length = 0 then .error .upperBoundNotPositive
  else
    match e with
    | [] => .error .outOfEntropy
    | x :: e' =>
        .ok (items.get ⟨x % items.length, Nat.mod_lt x (Nat.pos_of_ne_zero h)⟩, e')

/-- `_secure_randint(min_value, max_value)` from `src/main.py`:
`range_size = max - min + 1`; `offset = randbelow(range_size)`;
returns `min + offset`. -/
def secureRandint (lo hi : ℤ) (e : List ℕ) : Outcome (ℤ × List ℕ) :=
  match randbelow (hi - lo + 1) e with
  | .error err => .error err
  | .ok (off, e') => .ok (lo + off, e')

/-- The `while` loop of `_secure_sample`: keeps drawing indices below
`items.length`, skipping indices already in `seen`, until `acc` holds
`k` items.  Recursion is on the entropy list: each iteration consumes one
draw, and exhausting the (finite) entropy models a loop that is still
running. -/
def secureSampleGo {α : Type} (items : List α) (k : ℤ) (e : List ℕ)
    (seen : List ℕ) (acc : List α) : Outcome (List α × List ℕ) :=
  if (acc.length : ℤ) < k then
    if h : items.length = 0 then .error .upperBoundNotPositive
    else
      match e with
      | [] => .error .outOfEntropy
      | x :: e' =>
          if x % items.length ∈ seen then
            secureSampleGo items k e' seen acc
          else
            secureSampleGo items k e' (x % items.length :: seen)
              (acc ++ [items.get ⟨x % items.length,
                Nat.mod_lt x (Nat.pos_of_ne_zero h)⟩])
  else .ok (acc, e)

/-- `_secure_sample(items, sample_size)` from `src/main.py`: rejects
`sample_size > len(items)` up front, then runs the rejection loop with an
empty `seen` set and an empty accumulator. -/
def secureSample {α : Type} (items : List α) (k : ℤ) (e : List ℕ) :
    Outcome (List α × List ℕ) :=
  if (items.length : ℤ) < k then .error .sampleSizeExceedsPopulation
  else secureSampleGo items k e [] []

/-- `str.lower()` restricted to the ASCII range the program uses. -/
def pyLower (w : List Char) : List Char :=
  w.map Char.toLower

/-- `str.upper()` restricted to the ASCII range the program uses. -/
def pyUpper (w : List Char) : List Char :=
  w.map Char.toUpper

/-- Scanner behind `str.title()`: a letter is uppercased when the previous
character was not a letter and lowercased otherwise (ASCII range). -/
def pyTitleGo : Bool → List Char → List Char
  | _, [] => []
  | prevAlpha, c :: rest =>
      if c.isAlpha then
        (if prevAlpha then c.toLower else c.toUpper) :: pyTitleGo true rest
      else c :: pyTitleGo false rest

/-- `str.title()` restricted to the ASCII range the program uses. -/
def pyTitle (w : List Char) : List Char :=
  pyTitleGo false w

/-- Python's substring test `sub in s`: `sub` is a prefix of some suffix of
`s`; the empty string is contained in every string. -/
def isSubstring (sub : List Char) : List Char → Bool
  | [] => sub.isEmpty
  | c :: rest => sub.isPrefixOf (c :: rest) || isSubstring sub rest

/-- Greedy left-to-right splitter behind `str.split(sep)` for a non-empty
separator `c0 :: cs`.  The fuel argument only bounds the recursion; every
use supplies `fuel ≥ s.length`, which the lemmas below show is enough for
the fuel to be irrelevant. -/
def splitOnGo (c0 : Char) (cs : List Char) : ℕ → List Char → List (List Char)
  | _, [] => [[]]
  | 0, s => [s]
  | fuel + 1, c :: rest =>
      if (c0 :: cs).isPrefixOf (c :: rest) then
        [] :: splitOnGo c0 cs fuel ((c :: rest).drop (cs.length + 1))
      else
        match splitOnGo c0 cs fuel rest with
        | [] => [[c]]
        | seg :: segs => (c :: seg) :: segs

/-- `s.split(sep)` for non-empty `sep` (the program only splits in the
specification's statements, never in the source; this is the standard
left-to-right non-overlapping semantics of Python's `str.split`). -/
def splitOn (sep s : List Char) : List (List Char) :=
  match sep with
  | [] => [s]
  | c0 :: cs => splitOnGo c0 cs s.length s

/-- `s.replace(sep, "")`: removes every left-to-right non-overlapping
occurrence of `sep`; replacing the empty string by the empty string is the
identity. -/
def removeAll (sep s : List Char) : List Char :=
  (splitOn sep s).flatten

/-- The fixed symbol set `"!@#$%&"` of the symbol-injection step. -/
def SYMBOLS : List Char := ['!', '@', '#', '$', '%', '&']

/-- Lines 166–169 of `src/main.py`: the candidate symbols actually chosen
from.  `if separator in random_symbols: random_symbols =
random_symbols.replace(separator, "")`. -/
def symbolCandidates (sep : List Char) : List Char :=
  if isSubstring sep SYMBOLS then removeAll sep SYMBOLS else SYMBOLS

/-- `sep.join(words)` — Python string join. -/
def joinSep (sep : List Char) : List (List Char) → List Char
  | [] => []
  | [w] => w
  | w :: ws => w ++ sep ++ joinSep sep ws

/-- The query parameters of `/random-passphrase`.  `caseMode` is kept as a
raw string because the source compares it against string literals (and has
a silent final `else`). -/
structure PassphraseConfig where
  words : ℕ
  numbers : Bool
  symbols : Bool
  separator : List Char
  caseMode : List Char

/-- Lines 148–158 of `src/main.py`: the case transform applied to the
sampled words.  Note the final branch is `pass`: the words are returned
unchanged. -/
def applyCase (mode : List Char) (ws : List (List Char)) : List (List Char) :=
  if mode = "lower".toList then ws.map pyLower
  else if mode = "upper".toList then ws.map pyUpper
  else if mode = "title".toList then ws.map pyTitle
  else if mode = "camel".toList then
    match ws.map pyTitle with
    | [] => []
    | w :: rest => pyLower w :: rest
  else ws

/-- Lines 160–162 of `src/main.py`: append one random digit to one random
word. -/
def digitStep (ws : List (List Char)) (e : List ℕ) :
    Outcome (List (List Char) × List ℕ) :=
  match secureRandint 0 ((ws.length : ℤ) - 1) e with
  | .error err => .error err
  | .ok (i, e') =>
    match secureRandint 0 9 e' with
    | .error err => .error err
    | .ok (d, e'') =>
        .ok (ws.set i.toNat (ws.getD i.toNat [] ++ [Nat.digitChar d.toNat]), e'')

/-- Lines 164–171 of `src/main.py`: append one symbol, drawn from the
separator-filtered candidate set, to one random word. -/
def symbolStep (sep : List Char) (ws : List (List Char)) (e : List ℕ) :
    Outcome (List (List Char) × List ℕ) :=
  match secureRandint 0 ((ws.length : ℤ) - 1) e with
  | .error err => .error err
  | .ok (i, e') =>
    match secureChoice (symbolCandidates sep) e' with
    | .error err => .error err
    | .ok (c, e'') =>
        .ok (ws.set i.toNat (ws.getD i.toNat [] ++ [c]), e'')

/-- Lines 146–171 of `src/main.py`: sample the words, apply the case
transform, then the optional digit and symbol injections, producing the
decorated word list. -/
def composeWords (cfg : PassphraseConfig) (wordList : List (List Char))
    (e : List ℕ) : Outcome (List (List Char) × List ℕ) :=
  match secureSample wordList (cfg.words : ℤ) e with
  | .error err => .error err
  | .ok (chosen, e1) =>
    match (if cfg.numbers then digitStep (applyCase cfg.caseMode chosen) e1
           else .ok (applyCase cfg.caseMode chosen, e1)) with
    | .error err => .error err
    | .ok (ws1, e2) =>
        if cfg.symbols then symbolStep cfg.separator ws1 e2 else .ok (ws1, e2)

/-- Lines 146–173 of `src/main.py` (`random_passphrase` without the HTTP
wrapper): the final passphrase is the decorated words joined with the
separator. -/
def compose (cfg : PassphraseConfig) (wordList : List (List Char))
    (e : List ℕ) : Outcome (List Char) :=
  match composeWords cfg wordList e with
  | .error err => .error err
  | .ok (ws, _) => .ok (joinSep cfg.separator ws)

example : pyTitle "apple".toList = "Apple".toList := rfl
example : splitOn ['a'] "appleabanana".toList =
    ["".toList, "pple".toList, "b".toList, "n".toList, "n".toList, "".toList] := rfl
example : splitOn "aa".toList "aaaa".toList = [[], [], []] := rfl
example : symbolCandidates ['!'] = ['@', '#', '$', '%', '&'] := rfl
example : symbolCandidates ['!', '#'] = SYMBOLS := rfl
example : symbolCandidates "!@#".toList = ['$', '%', '&'] := rfl
example :
    compose ⟨3, false, false, ['-'], "camel".toList⟩
      ["apple".toList, "banana".toList, "cherry".toList] [0, 1, 2] =
    .ok "apple-Banana-Cherry".toList := rfl
example :
    compose ⟨2, false, false, ['a'], "lower".toList⟩
      ["apple".toList, "banana".toList] [0, 1] =
    .ok "appleabanana".toList := rfl

/-- The splitter ignores the exact amount of fuel as long as it is at
least the length of the string being split. -/
theorem splitOnGo_fuel {c0 : Char} {cs : List Char} :
    ∀ (fuel₁ : ℕ) (s : List Char) (fuel₂ : ℕ),
      s.length ≤ fuel₁ → s.length ≤ fuel₂ →
      splitOnGo c0 cs fuel₁ s = splitOnGo c0 cs fuel₂ s := by
  intro fuel₁
  induction fuel₁ with
  | zero =>
    intro s fuel₂ h1 h2
    have hs : s = [] := List.length_eq_zero.mp (Nat.le_zero.mp h1)
    subst hs
    cases fuel₂ <;> rfl
  | succ f ihf =>
    intro s fuel₂ h1 h2
    cases s with
    | nil => cases fuel₂ <;> rfl
    | cons c rest =>
      cases fuel₂ with
      | zero => simp at h2
      | succ f₂ =>
        simp only [splitOnGo]
        by_cases hp : (c0 :: cs).isPrefixOf (c :: rest) = true
        · rw [if_pos hp, if_pos hp]
          have hd : ((c :: rest).drop (cs.length + 1)).length ≤ f ∧
              ((c :: rest).drop (cs.length + 1)).length ≤ f₂ := by
            rw [List.length_drop]
            simp only [List.length_cons] at h1 h2 ⊢
            omega
          rw [ihf _ f₂ hd.1 hd.2]
        · rw [if_neg hp, if_neg hp]
          have hr : rest.length ≤ f ∧ rest.length ≤ f₂ := by
            simp only [List.length_cons] at h1 h2
            omega
          rw [ihf rest f₂ hr.1 hr.2]

/-- Splitting a string that contains no character of the separator yields
the string as its only segment. -/
theorem splitOnGo_no_occurrence {c0 : Char} {cs : List Char} :
    ∀ (s : List Char) (fuel : ℕ), s.length ≤ fuel →
      (∀ a ∈ s, a ∉ (c0 :: cs)) → splitOnGo c0 cs fuel s = [s] := by
  intro s
  induction s with
  | nil =>
    intro fuel _ _
    cases fuel <;> rfl
  | cons c rest ihs =>
    intro fuel h1 h2
    cases fuel with
    | zero => simp at h1
    | succ f =>
      simp only [splitOnGo]
      have hp : ¬ ((c0 :: cs).isPrefixOf (c :: rest) = true) := by
        intro hp
        have hpre := List.isPrefixOf_iff_prefix.mp hp
        have hc0 : c0 = c := (List.cons_prefix_cons.mp hpre).1
        exact h2 c (List.mem_cons_self c rest) (by rw [← hc0]; exact List.mem_cons_self c0 cs)
      rw [if_neg hp]
      rw [ihs f (by simp only [List.length_cons] at h1; omega)
        (fun a ha => h2 a (List.mem_cons_of_mem c ha))]

/-- Splitting at an occurrence of the separator: when the leading segment
contains no character of the separator, the split peels it off and
continues after the separator. -/
theorem splitOnGo_boundary {c0 : Char} {cs : List Char} :
    ∀ (w t : List Char) (fuel : ℕ), (w ++ (c0 :: cs) ++ t).length ≤ fuel →
      (∀ a ∈ w, a ∉ (c0 :: cs)) →
      splitOnGo c0 cs fuel (w ++ (c0 :: cs) ++ t) =
        w :: splitOnGo c0 cs t.length t := by
  intro w
  induction w with
  | nil =>
    intro t fuel h1 h2
    simp only [List.nil_append] at h1 ⊢
    cases fuel with
    | zero => simp at h1
    | succ f =>
      simp only [List.cons_append, List.append_eq, splitOnGo]
      have hp : (c0 :: cs).isPrefixOf (c0 :: (cs ++ t)) = true :=
        List.isPrefixOf_iff_prefix.mpr
          (List.cons_prefix_cons.mpr ⟨rfl, List.prefix_append cs t⟩)
      rw [if_pos hp]
      have hd : (c0 :: (cs ++ t)).drop (cs.length + 1) = t := by
        rw [List.drop_succ_cons, List.drop_left]
      rw [hd]
      have hf : t.length ≤ f := by
        simp only [List.length_cons, List.length_append] at h1
        omega
      rw [splitOnGo_fuel f t t.length hf le_rfl]
  | cons a w' ihw =>
    intro t fuel h1 h2
    cases fuel with
    | zero => simp at h1
    | succ f =>
      simp only [List.cons_append, List.append_eq, splitOnGo]
      have ha : a ∉ (c0 :: cs) := h2 a (List.mem_cons_self a w')
      have hp : ¬ ((c0 :: cs).isPrefixOf
          (a :: (w' ++ (c0 :: cs) ++ t)) = true) := by
        intro hp
        have hc0 := (List.cons_prefix_cons.mp (List.isPrefixOf_iff_prefix.mp hp)).1
        exact ha (by rw [hc0]; exact List.mem_cons_self a cs)
      rw [if_neg hp]
      rw [ihw t f (by simp only [List.cons_append, List.length_cons] at h1 ⊢; omega)
        (fun b hb => h2 b (List.mem_cons_of_mem a hb))]

/-- Wrapper of `splitOnGo_no_occurrence` at the canonical fuel. -/
theorem splitOn_no_occurrence (c0 : Char) (cs s : List Char)
    (h : ∀ a ∈ s, a ∉ (c0 :: cs)) : splitOn (c0 :: cs) s = [s] :=
  splitOnGo_no_occurrence s s.length le_rfl h

/-- Wrapper of `splitOnGo_boundary` at the canonical fuel. -/
theorem splitOn_boundary (c0 : Char) (cs w t : List Char)
    (h : ∀ a ∈ w, a ∉ (c0 :: cs)) :
    splitOn (c0 :: cs) (w ++ (c0 :: cs) ++ t) = w :: splitOn (c0 :: cs) t := by
  rw [splitOn, splitOn]
  exact splitOnGo_boundary w t _ le_rfl h

/-- Splitting a separator-join recovers the joined segments, provided no
segment contains a character of the (non-empty) separator. -/
theorem splitOn_joinSep (c0 : Char) (cs : List Char) :
    ∀ ws : List (List Char), ws ≠ [] →
      (∀ w ∈ ws, ∀ a ∈ w, a ∉ (c0 :: cs)) →
      splitOn (c0 :: cs) (joinSep (c0 :: cs) ws) = ws := by
  intro ws
  induction ws with
  | nil => intro h; exact absurd rfl h
  | cons w ws' ih =>
    intro _ hch
    cases ws' with
    | nil =>
      rw [show joinSep (c0 :: cs) [w] = w from rfl]
      exact splitOn_no_occurrence c0 cs w (hch w (List.mem_cons_self w []))
    | cons w2 ws'' =>
      rw [show joinSep (c0 :: cs) (w :: w2 :: ws'') =
        w ++ (c0 :: cs) ++ joinSep (c0 :: cs) (w2 :: ws'') from rfl]
      rw [splitOn_boundary c0 cs w _ (hch w (List.mem_cons_self w (w2 :: ws'')))]
      rw [ih (by simp) (fun v hv => hch v (List.mem_cons_of_mem w hv))]

/-- The Boolean substring test agrees with the infix relation. -/
theorem isSubstring_correct (sub : List Char) :
    ∀ s : List Char, isSubstring sub s = true ↔ sub <:+: s := by
  intro s
  induction s with
  | nil =>
    rw [isSubstring, List.isEmpty_iff]
    constructor
    · rintro rfl
      exact ⟨[], [], rfl⟩
    · rintro ⟨s', t', hst⟩
      have h1 := (List.append_eq_nil.mp hst).1
      exact (List.append_eq_nil.mp h1).2
  | cons b s' ihs =>
    rw [isSubstring, List.infix_cons_iff, Bool.or_eq_true,
      List.isPrefixOf_iff_prefix, ihs]

/-- In a duplicate-free list decomposed around an occurrence of `sep`,
neither the part before nor the part after the occurrence shares an
element with `sep`. -/
theorem nodup_decomp_disjoint {α : Type} (sep t u s : List α)
    (hs : t ++ sep ++ u = s) (hnd : s.Nodup) :
    (∀ a ∈ t, a ∉ sep) ∧ (∀ a ∈ u, a ∉ sep) := by
  subst hs
  rw [List.append_assoc, List.nodup_append] at hnd
  obtain ⟨hT, hSU, hdisj⟩ := hnd
  rw [List.nodup_append] at hSU
  obtain ⟨hS, hU, hdisj2⟩ := hSU
  constructor
  · intro a ha hc
    exact hdisj ha (List.mem_append_left u hc)
  · intro a ha hc
    exact hdisj2 hc ha

/-- Removing the (unique) occurrence of a non-empty separator from a
duplicate-free string deletes exactly that occurrence. -/
theorem removeAll_infix_nodup (c0 : Char) (cs t u s : List Char)
    (hs : t ++ (c0 :: cs) ++ u = s) (hnd : s.Nodup) :
    removeAll (c0 :: cs) s = t ++ u := by
  obtain ⟨h1, h2⟩ := nodup_decomp_disjoint (c0 :: cs) t u s hs hnd
  rw [← hs, removeAll, splitOn_boundary c0 cs t u h1,
    splitOn_no_occurrence c0 cs u h2]
  simp

/-- C9: the symbol-injection filter works by Python substring containment:
a separator that is a contiguous substring of `"!@#$%&"` has all of its
characters removed from the candidate set, a separator that is not a
contiguous substring (for example `"!#"`) leaves the candidate set entirely
unfiltered — so one of its characters can still be appended — and for every
separator of length at most 3 the filtered candidate set is non-empty. -/
theorem symbol_filter_substring_spec :
    (∀ sep : List Char, isSubstring sep SYMBOLS = true →
      ∀ c ∈ sep, c ∉ symbolCandidates sep) ∧
    (∀ sep : List Char, isSubstring sep SYMBOLS = false →
      symbolCandidates sep = SYMBOLS) ∧
    (isSubstring ['!', '#'] SYMBOLS = false ∧
      symbolCandidates ['!', '#'] = SYMBOLS ∧
      '!' ∈ symbolCandidates ['!', '#']) ∧
    (∀ sep : List Char, sep.length ≤ 3 → symbolCandidates sep ≠ []) := by
  refine ⟨?_, ?_, ⟨rfl, rfl, by decide⟩, ?_⟩
  · intro sep hsub c hc
    obtain ⟨t, u, hs⟩ := (isSubstring_correct sep SYMBOLS).mp hsub
    cases sep with
    | nil => simp at hc
    | cons c0 cs =>
      have hfacts := nodup_decomp_disjoint (c0 :: cs) t u SYMBOLS hs (by decide)
      rw [symbolCandidates, if_pos hsub,
        removeAll_infix_nodup c0 cs t u SYMBOLS hs (by decide)]
      intro hmem
      rcases List.mem_append.mp hmem with h | h
      · exact hfacts.1 c h hc
      · exact hfacts.2 c h hc
  · intro sep h
    rw [symbolCandidates, if_neg (by simp [h])]
  · intro sep hlen3 h0
    by_cases hsub : isSubstring sep SYMBOLS = true
    · obtain ⟨t, u, hs⟩ := (isSubstring_correct sep SYMBOLS).mp hsub
      cases sep with
      | nil => exact absurd h0 (by decide)
      | cons c0 cs =>
        rw [symbolCandidates, if_pos hsub,
          removeAll_infix_nodup c0 cs t u SYMBOLS hs (by decide)] at h0
        have h6 : SYMBOLS.length =
            t.length + (c0 :: cs).length + u.length := by
          rw [← hs]
          simp [List.length_append]
          omega
        have ht := List.append_eq_nil.mp h0
        rw [ht.1, ht.2] at h6
        simp only [List.length_cons] at h6 hlen3
        have hS6 : SYMBOLS.length = 6 := rfl
        simp only [List.length_nil] at h6
        omega
    · rw [symbolCandidates, if_neg hsub] at h0
      exact absurd h0 (by decide)

theorem symbol_filter_substring_spec_witness :
    ('@' ∉ symbolCandidates ['!', '@']) ∧
    (symbolCandidates ['%', '!'] = SYMBOLS) ∧
    (symbolCandidates "abc".toList ≠ []) :=
  ⟨symbol_filter_substring_spec.1 ['!', '@'] (by decide) '@' (by decide),
   symbol_filter_substring_spec.2.1 ['%', '!'] (by decide),
   symbol_filter_substring_spec.2.2.2 "abc".toList (by decide)⟩

/-- Any successful `_secure_choice` returns an element of its input: the
returned value is `items[index]` for the drawn index. -/
theorem secureChoice_ok_mem {α : Type} (items : List α) (e : List ℕ) (c : α)
    (e' : List ℕ) (h : secureChoice items e = .ok (c, e')) : c ∈ items := by
  unfold secureChoice at h
  split at h
  · simp at h
  · split at h
    · simp at h
    · simp only [Outcome.ok.injEq, Prod.mk.injEq] at h
      rw [← h.1]
      exact List.get_mem ..

/-- Invariant of the `_secure_sample` loop: starting from a duplicate-free
`seen` list of in-range indices whose (reversed) image under indexing is the
accumulator, any successful run returns the image of a duplicate-free list
of in-range indices, of length exactly `k`. -/
theorem secureSampleGo_ok {α : Type} (items : List α) (k : ℤ) (e : List ℕ) :
    ∀ (seen : List ℕ) (acc l : List α) (e' : List ℕ),
      (acc.length : ℤ) ≤ k →
      seen.Nodup →
      (∀ i ∈ seen, i < items.length) →
      acc = seen.reverse.filterMap (fun i => items.get? i) →
      secureSampleGo items k e seen acc = .ok (l, e') →
      ∃ idxs : List ℕ, idxs.Nodup ∧ (∀ i ∈ idxs, i < items.length) ∧
        l = idxs.filterMap (fun i => items.get? i) ∧ (l.length : ℤ) = k := by
  induction e with
  | nil =>
    intro seen acc l e' hle hnd hb hacc hok
    rw [secureSampleGo] at hok
    by_cases hlt : (acc.length : ℤ) < k
    · rw [if_pos hlt] at hok
      by_cases hlen0 : items.length = 0
      · rw [dif_pos hlen0] at hok
        exact Outcome.noConfusion hok
      · rw [dif_neg hlen0] at hok
        exact Outcome.noConfusion hok
    · rw [if_neg hlt] at hok
      simp only [Outcome.ok.injEq, Prod.mk.injEq] at hok
      refine ⟨seen.reverse, List.nodup_reverse.mpr hnd, ?_, ?_, ?_⟩
      · intro i hi
        exact hb i (List.mem_reverse.mp hi)
      · rw [← hok.1, hacc]
      · rw [← hok.1]
        omega
  | cons x e'' ih =>
    intro seen acc l e' hle hnd hb hacc hok
    rw [secureSampleGo] at hok
    by_cases hlt : (acc.length : ℤ) < k
    · rw [if_pos hlt] at hok
      by_cases hlen0 : items.length = 0
      · rw [dif_pos hlen0] at hok
        exact Outcome.noConfusion hok
      · rw [dif_neg hlen0] at hok
        dsimp only at hok
        by_cases hmem : x % items.length ∈ seen
        · rw [if_pos hmem] at hok
          exact ih seen acc l e' hle hnd hb hacc hok
        · rw [if_neg hmem] at hok
          refine ih (x % items.length :: seen) _ l e' ?_ ?_ ?_ ?_ hok
          · rw [List.length_append, List.length_singleton]
            push_cast
            omega
          · exact List.nodup_cons.mpr ⟨hmem, hnd⟩
          · intro i hi
            rcases List.mem_cons.mp hi with h | h
            · rw [h]
              exact Nat.mod_lt x (Nat.pos_of_ne_zero hlen0)
            · exact hb i h
          · have h18 : x % items.length < items.length :=
              Nat.mod_lt x (Nat.pos_of_ne_zero hlen0)
            rw [List.reverse_cons, List.filterMap_append, ← hacc]
            simp [List.filterMap_cons, List.getElem?_eq_getElem h18]
    · rw [if_neg hlt] at hok
      simp only [Outcome.ok.injEq, Prod.mk.injEq] at hok
      refine ⟨seen.reverse, List.nodup_reverse.mpr hnd, ?_, ?_, ?_⟩
      · intro i hi
        exact hb i (List.mem_reverse.mp hi)
      · rw [← hok.1, hacc]
      · rw [← hok.1]
        omega

/-- C1 (amended): for `0 ≤ k ≤ len(items)`, a run of `_secure_sample` that
returns yields exactly `k` elements, each an element of `items`, taken at
pairwise-distinct indices; whenever the elements of `items` are themselves
pairwise distinct, the returned elements are pairwise distinct. -/
theorem secure_sample_success_spec {α : Type} (items : List α) (k : ℤ)
    (e : List ℕ) (l : List α) (e' : List ℕ) (hk0 : 0 ≤ k)
    (hk : k ≤ (items.length : ℤ))
    (hok : secureSample items k e = .ok (l, e')) :
    (l.length : ℤ) = k ∧ (∀ a ∈ l, a ∈ items) ∧ (items.Nodup → l.Nodup) := by
  rw [secureSample, if_neg (by omega)] at hok
  obtain ⟨idxs, hnd, hb, hl, hlen⟩ :=
    secureSampleGo_ok items k e [] [] l e' (by simpa using hk0) (by simp)
      (by simp) (by simp) hok
  refine ⟨hlen, ?_, ?_⟩
  · intro a ha
    rw [hl] at ha
    obtain ⟨i, _, hgi⟩ := List.mem_filterMap.mp ha
    exact List.get?_mem hgi
  · intro hnditems
    rw [hl]
    refine List.Nodup.filterMap ?_ hnd
    intro i j a hai haj
    have h1 : items.get? i = some a := hai
    have h2 : items.get? j = some a := haj
    have hilt : i < items.length := by
      by_contra hge
      rw [List.get?_eq_none.mpr (by omega)] at h1
      exact Option.noConfusion h1
    exact List.getElem?_inj hilt hnditems
      (by rw [← List.get?_eq_getElem?, ← List.get?_eq_getElem?, h1, h2])

theorem secure_sample_success_spec_witness :
    ((([10, 20] : List ℕ)).length : ℤ) = 2 ∧
    (∀ a ∈ ([10, 20] : List ℕ), a ∈ ([10, 20] : List ℕ)) ∧
    (([10, 20] : List ℕ).Nodup → ([10, 20] : List ℕ).Nodup) :=
  secure_sample_success_spec [10, 20] 2 [0, 1] [10, 20] [] (by decide)
    (by decide) rfl

/-- C1 counterexample: with the two-element sequence `[0, 0]` (duplicate
items) and `k = 2` (so `0 ≤ k ≤ len(items)`), the entropy `[0, 1]` draws
the two distinct indices `0` and `1` and `_secure_sample` returns `[0, 0]`,
whose elements are not pairwise distinct. -/
theorem secure_sample_distinctness_counterexample :
    secureSample ([0, 0] : List ℕ) 2 [0, 1] = .ok ([0, 0], []) ∧
    ¬ ([0, 0] : List ℕ).Nodup ∧
    (0 : ℤ) ≤ 2 ∧ (2 : ℤ) ≤ ((([0, 0] : List ℕ)).length : ℤ) :=
  ⟨rfl, by decide, by decide, by decide⟩

/-- A successful `_secure_sample` returns exactly the requested number of
elements (for a non-negative request). -/
theorem secureSample_ok_length {α : Type} (items : List α) (k : ℤ)
    (e : List ℕ) (l : List α) (e' : List ℕ) (hk0 : 0 ≤ k)
    (h : secureSample items k e = .ok (l, e')) : (l.length : ℤ) = k := by
  rw [secureSample] at h
  by_cases hk : (items.length : ℤ) < k
  · rw [if_pos hk] at h
    exact Outcome.noConfusion h
  · rw [if_neg hk] at h
    obtain ⟨idxs, _, _, _, hlen⟩ :=
      secureSampleGo_ok items k e [] [] l e' (by simpa using hk0) (by simp)
        (by simp) (by simp) h
    exact hlen

/-- The case transform does not change the number of words. -/
theorem applyCase_length (mode : List Char) (ws : List (List Char)) :
    (applyCase mode ws).length = ws.length := by
  rw [applyCase]
  split_ifs with h1 h2 h3 h4
  · simp
  · simp
  · simp
  · cases ws <;> simp
  · rfl

/-- The digit-injection step does not change the number of words. -/
theorem digitStep_ok_length (ws ws' : List (List Char)) (e e' : List ℕ)
    (h : digitStep ws e = .ok (ws', e')) : ws'.length = ws.length := by
  rw [digitStep] at h
  split at h
  · exact Outcome.noConfusion h
  · split at h
    · exact Outcome.noConfusion h
    · simp only [Outcome.ok.injEq, Prod.mk.injEq] at h
      rw [← h.1, List.length_set]

/-- The symbol-injection step does not change the number of words. -/
theorem symbolStep_ok_length (sep : List Char) (ws ws' : List (List Char))
    (e e' : List ℕ) (h : symbolStep sep ws e = .ok (ws', e')) :
    ws'.length = ws.length := by
  rw [symbolStep] at h
  split at h
  · exact Outcome.noConfusion h
  · split at h
    · exact Outcome.noConfusion h
    · simp only [Outcome.ok.injEq, Prod.mk.injEq] at h
      rw [← h.1, List.length_set]

/-- A successful composition produces exactly `cfg.words` decorated
words. -/
theorem composeWords_ok_length (cfg : PassphraseConfig)
    (wl : List (List Char)) (e : List ℕ) (ws : List (List Char))
    (e' : List ℕ) (h : composeWords cfg wl e = .ok (ws, e')) :
    ws.length = cfg.words := by
  rw [composeWords] at h
  split at h
  · exact Outcome.noConfusion h
  · rename_i chosen e1 heq
    have hch : chosen.length = cfg.words := by
      have := secureSample_ok_length wl (cfg.words : ℤ) e chosen e1
        (by exact_mod_cast Nat.zero_le _) heq
      exact_mod_cast this
    split at h
    · exact Outcome.noConfusion h
    · rename_i ws1 e2 hmid
      have hws1 : ws1.length = (applyCase cfg.caseMode chosen).length := by
        by_cases hn : cfg.numbers
        · rw [if_pos hn] at hmid
          exact digitStep_ok_length _ _ _ _ hmid
        · rw [if_neg hn] at hmid
          simp only [Outcome.ok.injEq, Prod.mk.injEq] at hmid
          rw [← hmid.1]
      have hfin : ws.length = ws1.length := by
        by_cases hs : cfg.symbols
        · rw [if_pos hs] at h
          exact symbolStep_ok_length _ _ _ _ _ h
        · rw [if_neg hs] at h
          simp only [Outcome.ok.injEq, Prod.mk.injEq] at h
          rw [← h.1]
      rw [hfin, hws1, applyCase_length, hch]

/-- C3 (amended): for a valid configuration (word count at least 1) with a
non-empty separator none of whose characters occurs in any of the decorated
words produced by the composition, the passphrase splits on the separator
into exactly `words` segments.  The original unconditional claim fails when
a composed word contains a separator character (see the counterexample). -/
theorem compose_split_count (cfg : PassphraseConfig) (wl : List (List Char))
    (e : List ℕ) (ws : List (List Char)) (e' : List ℕ)
    (hw : 1 ≤ cfg.words)
    (hok : composeWords cfg wl e = .ok (ws, e'))
    (hsep : cfg.separator ≠ [])
    (hch : ∀ w ∈ ws, ∀ a ∈ w, a ∉ cfg.separator) :
    compose cfg wl e = .ok (joinSep cfg.separator ws) ∧
    (splitOn cfg.separator (joinSep cfg.separator ws)).length = cfg.words := by
  have hlen : ws.length = cfg.words := composeWords_ok_length cfg wl e ws e' hok
  have hwsne : ws ≠ [] := by
    intro h0
    rw [h0] at hlen
    simp at hlen
    omega
  obtain ⟨c0, cs, hsepeq⟩ := List.exists_cons_of_ne_nil hsep
  constructor
  · rw [compose, hok]
  · rw [hsepeq, splitOn_joinSep c0 cs ws hwsne (by rw [← hsepeq]; exact hch)]
    exact hlen

theorem compose_split_count_witness :
    compose ⟨2, false, false, ['-'], "lower".toList⟩
        ["hi".toList, "yo".toList] [0, 1] =
      .ok (joinSep ['-'] ["hi".toList, "yo".toList]) ∧
    (splitOn ['-'] (joinSep ['-'] ["hi".toList, "yo".toList])).length = 2 :=
  compose_split_count ⟨2, false, false, ['-'], "lower".toList⟩
    ["hi".toList, "yo".toList] [0, 1] ["hi".toList, "yo".toList] []
    (by decide) rfl (by decide) (by decide)

/-- C3 counterexample: the configuration {2 words, separator `"a"`, case
`"lower"`, no digit, no symbol} is valid, entropy `[0, 1]` selects
`["apple", "banana"]`, and the composed passphrase `"appleabanana"` splits
on the (non-empty) separator `"a"` into 6 segments, not 2. -/
theorem compose_split_count_counterexample :
    compose ⟨2, false, false, ['a'], "lower".toList⟩
      ["apple".toList, "banana".toList] [0, 1] = .ok "appleabanana".toList ∧
    (splitOn ['a'] "appleabanana".toList).length = 6 ∧
    (splitOn ['a'] "appleabanana".toList).length ≠ 2 :=
  ⟨rfl, rfl, by decide⟩

/-- C10: `_secure_sample(items, k)` with `k ≤ 0` (including negative `k`)
returns the empty list, leaves the entropy untouched, and raises no
error: the `sample_size > len(items)` guard does not fire (its left side is
non-positive) and the `while` loop body never runs. -/
theorem secure_sample_nonpositive_spec {α : Type} (items : List α) (k : ℤ)
    (e : List ℕ) (hk : k ≤ 0) : secureSample items k e = .ok ([], e) := by
  have h1 : ¬ ((items.length : ℤ) < k) := by
    have := Int.ofNat_nonneg items.length
    omega
  have h2 : ¬ (((([] : List α).length : ℤ)) < k) := by simp; omega
  rw [secureSample, if_neg h1, secureSampleGo, if_neg h2]

theorem secure_sample_nonpositive_spec_witness :
    secureSample ([3, 4] : List ℕ) (-2) [7] = .ok ([], [7]) :=
  secure_sample_nonpositive_spec [3, 4] (-2) [7] (by decide)

/-- C5: `_secure_sample(items, k)` with `k > len(items)` fails with the
sample-size error for every entropy stream (the result does not depend on
the entropy, i.e. no entropy is consumed, and the error carries no partial
sample), and `random_passphrase` with a word count exceeding the word-list
length fails the same way with no partially-composed passphrase. -/
theorem sample_size_exceeds_spec :
    (∀ (α : Type) (items : List α) (k : ℤ), (items.length : ℤ) < k →
      ∀ e, secureSample items k e = .error .sampleSizeExceedsPopulation) ∧
    (∀ (cfg : PassphraseConfig) (wordList : List (List Char)),
      wordList.length < cfg.words →
      ∀ e, compose cfg wordList e = .error .sampleSizeExceedsPopulation) := by
  constructor
  · intro α items k hk e
    rw [secureSample, if_pos hk]
  · intro cfg wl h e
    have hk : (wl.length : ℤ) < (cfg.words : ℤ) := by exact_mod_cast h
    rw [compose, composeWords, secureSample, if_pos hk]

theorem sample_size_exceeds_spec_witness :
    secureSample ([9] : List ℕ) 2 [0, 1] = .error .sampleSizeExceedsPopulation ∧
    compose ⟨3, false, false, ['-'], "title".toList⟩ ["hi".toList] [4, 5] =
      .error .sampleSizeExceedsPopulation :=
  ⟨sample_size_exceeds_spec.1 ℕ [9] 2 (by decide) [0, 1],
   sample_size_exceeds_spec.2 ⟨3, false, false, ['-'], "title".toList⟩
     ["hi".toList] (by decide) [4, 5]⟩

/-- C7: `_secure_choice` on the empty sequence fails (with the error raised
by `secrets.randbelow(0)`, the spec's `EmptyInputError`); on a non-empty
sequence with an available entropy draw it succeeds and its value is an
element of the sequence; moreover any successful result is an element of
the input. -/
theorem secure_choice_spec :
    (∀ (α : Type) (e : List ℕ),
      secureChoice ([] : List α) e = .error .upperBoundNotPositive) ∧
    (∀ (α : Type) (items : List α) (e : List ℕ) (c : α) (e' : List ℕ),
      secureChoice items e = .ok (c, e') → c ∈ items) ∧
    (∀ (α : Type) (items : List α) (x : ℕ) (e : List ℕ), items ≠ [] →
      ∃ c, secureChoice items (x :: e) = .ok (c, e) ∧ c ∈ items) := by
  refine ⟨?_, ?_, ?_⟩
  · intro α e
    simp [secureChoice]
  · intro α items e c e' h
    exact secureChoice_ok_mem items e c e' h
  · intro α items x e hne
    have hlen : items.length ≠ 0 := by
      simpa [List.length_eq_zero] using hne
    refine ⟨items.get ⟨x % items.length, Nat.mod_lt x (Nat.pos_of_ne_zero hlen)⟩,
      ?_, List.get_mem ..⟩
    rw [secureChoice, dif_neg hlen]

theorem secure_choice_spec_witness :
    secureChoice ([] : List ℕ) [5] = .error .upperBoundNotPositive ∧
    ('#' ∈ ['@', '#']) ∧
    (∃ c, secureChoice ([4, 9] : List ℕ) [3, 8] = .ok (c, [8]) ∧ c ∈ [4, 9]) :=
  ⟨secure_choice_spec.1 ℕ [5],
   secure_choice_spec.2.1 Char ['@', '#'] [1] '#' [] (by decide),
   secure_choice_spec.2.2 ℕ [4, 9] 3 [8] (by decide)⟩

/-- C4: `_secure_randint(lo, hi)` with `lo ≤ hi` computes
`span = hi - lo + 1`, draws below `span`, and returns `lo` plus the draw;
every successful result lies in `[lo, hi]`, and every `v ∈ [lo, hi]` is
produced by some entropy draw. -/
theorem secure_randint_spec (lo hi : ℤ) (h : lo ≤ hi) :
    (∀ (x : ℕ) (e : List ℕ),
      secureRandint lo hi (x :: e) = .ok (lo + (x : ℤ) % (hi - lo + 1), e)) ∧
    (∀ (e : List ℕ) (r : ℤ) (e' : List ℕ),
      secureRandint lo hi e = .ok (r, e') → lo ≤ r ∧ r ≤ hi) ∧
    (∀ v : ℤ, lo ≤ v → v ≤ hi →
      secureRandint lo hi [(v - lo).toNat] = .ok (v, [])) := by
  have hspan : 0 < hi - lo + 1 := by omega
  have hspan' : ¬ (hi - lo + 1 ≤ 0) := by omega
  refine ⟨?_, ?_, ?_⟩
  · intro x e
    rw [secureRandint, randbelow, if_neg hspan']
  · intro e r e' hok
    cases e with
    | nil => simp [secureRandint, randbelow, hspan'] at hok
    | cons x rest =>
      simp only [secureRandint, randbelow, if_neg hspan', Outcome.ok.injEq,
        Prod.mk.injEq] at hok
      have h0 : 0 ≤ (x : ℤ) % (hi - lo + 1) := Int.emod_nonneg _ (by omega)
      have hlt : (x : ℤ) % (hi - lo + 1) < hi - lo + 1 :=
        Int.emod_lt_of_pos _ hspan
      omega
  · intro v hv1 hv2
    have ht : ((v - lo).toNat : ℤ) = v - lo := Int.toNat_of_nonneg (by omega)
    have hm : (v - lo) % (hi - lo + 1) = v - lo :=
      Int.emod_eq_of_lt (by omega) (by omega)
    simp [secureRandint, randbelow, hspan', ht, hm]

theorem secure_randint_spec_witness :
    secureRandint 1 6 [9] = .ok (1 + (9 : ℤ) % (6 - 1 + 1), []) ∧
    ((1 : ℤ) ≤ 4 ∧ (4 : ℤ) ≤ 6) ∧
    secureRandint 1 6 [((6 : ℤ) - 1).toNat] = .ok (6, []) :=
  ⟨(secure_randint_spec 1 6 (by decide)).1 9 [],
   (secure_randint_spec 1 6 (by decide)).2.1 [9] 4 [] (by decide),
   (secure_randint_spec 1 6 (by decide)).2.2 6 (by decide) (by decide)⟩

/-- C2: the source's final `else: pass` branch applies no case transform at
all, so an out-of-enum case mode does not behave like `"title"`: with the
word list `["apple"]`, one word, separator `"-"` and case mode `"banana"`,
the passphrase is `"apple"`, while case mode `"title"` yields `"Apple"`.
This contradicts the source's own comment ("just let it fail silently and
default to title") and the spec's fallback-to-title contract. -/
theorem invalid_case_mode_behavior :
    compose ⟨1, false, false, ['-'], "banana".toList⟩ ["apple".toList] [0] =
      .ok "apple".toList ∧
    compose ⟨1, false, false, ['-'], "title".toList⟩ ["apple".toList] [0] =
      .ok "Apple".toList ∧
    "apple".toList ≠ "Apple".toList :=
  ⟨rfl, rfl, by decide⟩

/-- C8: with case mode `camel`, separator `"-"`, no digit, no symbol, and
entropy that selects `["apple", "banana", "cherry"]` in that order, the
composed passphrase is exactly `"apple-Banana-Cherry"`. -/
theorem camel_mode_literal_example :
    compose ⟨3, false, false, ['-'], "camel".toList⟩
      ["apple".toList, "banana".toList, "cherry".toList] [0, 1, 2] =
    .ok "apple-Banana-Cherry".toList := rfl

/-- C6: with separator `"!"` the candidate set of the symbol-injection step
is exactly `"@#$%&"`, and the symbol chosen from it by `_secure_choice`
(the one appended to a word) is always in that set and never `'!'`. -/
theorem separator_excluded_symbol_spec :
    symbolCandidates ['!'] = ['@', '#', '$', '%', '&'] ∧
    ∀ (e : List ℕ) (c : Char) (e' : List ℕ),
      secureChoice (symbolCandidates ['!']) e = .ok (c, e') →
      c ∈ ['@', '#', '$', '%', '&'] ∧ c ≠ '!' := by
  refine ⟨rfl, ?_⟩
  intro e c e' h
  have hm : c ∈ symbolCandidates ['!'] := secureChoice_ok_mem _ _ _ _ h
  have hm' : c ∈ ['@', '#', '$', '%', '&'] := by
    rwa [show symbolCandidates ['!'] = ['@', '#', '$', '%', '&'] from rfl] at hm
  refine ⟨hm', ?_⟩
  intro hc
  subst hc
  revert hm'
  decide

theorem separator_excluded_symbol_spec_witness :
    symbolCandidates ['!'] = ['@', '#', '$', '%', '&'] ∧
    ('@' ∈ ['@', '#', '$', '%', '&'] ∧ '@' ≠ '!') :=
  ⟨separator_excluded_symbol_spec.1,
   separator_excluded_symbol_spec.2 [0] '@' [] (by decide)⟩
